import Mathlib

/-!
Verification of the dynamically-sized worker thread pool in
`src/thread_pool.hpp` (class `ThreadPool`), against its natural-language
specification.

The pool's shared state (all fields guarded by the single mutex `m_`) is
embedded as the structure `GState`.  Every lock-held region of the C++ code
is one atomic step of a labeled transition system (`stepFn`): the states
between steps are exactly the quiescent observations (points where the lock
is not held).  Condition-variable waits split an operation into phases, and
a wake step requires the wait predicate to hold (waits are spurious-wake
safe, `std::condition_variable::wait(ul, pred)` semantics).

Worker threads are recorded in a history list `workers`; a record keeps its
slot index and a phase:
  * `top`           — at the top of the worker loop (line 26), about to take
                      the lock and run the retire check of lines 32-36;
  * `waiting`       — has incremented `free_workers_` (line 39) and is inside
                      `workers_cv_.wait` (line 42);
  * `running`       — has dequeued a task and is executing it outside the
                      lock (line 58);
  * `exitedRetired` — left the loop through the retire branch (lines 32-36);
  * `exitedTerm`    — left the loop through the termination check (line 48),
                      which touches neither `free_workers_`, `num_workers_`
                      nor `active_workers_`.

The task queue `tasks_` is abstracted to its length (the claims settled on
this model concern only counters, signals and the slot table; the
binding/result-channel claim C3 is settled on a separate model below).
Condition-variable signals emitted by a step are returned alongside the
successor state.  `std::thread::join` performed by `addWorker` (line 68) is
a no-op on the model state: exited workers simply stay in the history list.
-/

namespace ThreadPool

/-- Phase of a worker thread inside the loop spawned by `startWorker`
(lines 25-60 of `src/thread_pool.hpp`). -/
inductive WPhase
  | top
  | waiting
  | running
  | exitedRetired
  | exitedTerm
  deriving DecidableEq, Repr

/-- A worker thread is live while it has not yet exited its loop. -/
def WPhase.live : WPhase → Bool
  | .top => true
  | .waiting => true
  | .running => true
  | .exitedRetired => false
  | .exitedTerm => false

/-- One worker thread: the slot index it occupies and its loop phase. -/
structure WorkerT where
  slot : Nat
  phase : WPhase
  deriving DecidableEq, Repr

/-- The shared fields of `class ThreadPool` (lines 11-22), all guarded by
the mutex `m_`.  `tasks` is the length of the queue `tasks_`. -/
structure Pool where
  terminated : Bool
  min_workers : Int
  max_workers : Int
  max_qsize : Int
  num_workers : Int
  free_workers : Int
  active_workers : List Bool
  tasks : Nat
  deriving DecidableEq, Repr

/-- Global state: the pool fields plus the history of worker threads. -/
structure GState where
  pool : Pool
  workers : List WorkerT
  deriving DecidableEq, Repr

/-- The two condition variables of the pool (lines 21-22). -/
inductive Sig
  | workersCV
  | submitCV
  deriving DecidableEq, Repr

/-- Conversion of a C++ `int` value to `size_t`, as performed implicitly by
the comparison `tasks_.size() < max_qsize_` on line 117 (the `int` operand
is converted to the unsigned 64-bit type). -/
def sizeT (x : Int) : Int := x.emod (2 ^ 64)

/-- Body of `ThreadPool::startWorker` (lines 24-63) apart from launching the
thread itself: the new thread starts at the top of its loop, the slot is
marked active (line 61) and `num_workers_` is incremented (line 62). -/
def startWorker (id : Nat) (s : GState) : GState :=
  { pool := { s.pool with
                active_workers := s.pool.active_workers.set id true,
                num_workers := s.pool.num_workers + 1 },
    workers := s.workers ++ [⟨id, .top⟩] }

/-- Scan of `ThreadPool::addWorker` (lines 66-72): index of the first
inactive slot, if any. -/
def scanInactive : List Bool → Option Nat
  | [] => none
  | b :: rest => if b = false then some 0 else (scanInactive rest).map (· + 1)

/-- `ThreadPool::addWorker` (lines 65-73): start a worker in the
lowest-numbered inactive slot (joining the slot's previous, already exited,
thread first); do nothing if every slot is active. -/
def addWorker (s : GState) : GState :=
  match scanInactive s.pool.active_workers with
  | some id => startWorker id s
  | none => s

/-- Lines 123-130 of `ThreadPool::submit`, the region executed under the
lock once the wait of line 117 has passed: enqueue the task, spawn a new
worker if `free_workers_` is zero and `num_workers_ < max_workers_`
(line 127), and notify one waiter of `workers_cv_` (line 130). -/
def enqueueStep (s : GState) : GState × List Sig :=
  let s1 : GState := { s with pool := { s.pool with tasks := s.pool.tasks + 1 } }
  let s2 : GState :=
    if s1.pool.free_workers = 0 ∧ s1.pool.num_workers < s1.pool.max_workers
    then addWorker s1 else s1
  (s2, [Sig.workersCV])

/-- Labels of the atomic steps of the pool: worker-loop phases (indexed by
the worker's position in the history list), the enqueue region of a
submitter that has passed the wait of line 117, and a `terminate` call. -/
inductive Label
  | retire (i : Nat)
  | enterWait (i : Nat)
  | wakeTake (i : Nat)
  | wakeExit (i : Nat)
  | finishTask (i : Nat)
  | enqueue
  | terminateCall
  deriving DecidableEq, Repr

/-- The atomic steps of the pool, one per lock-held region of
`src/thread_pool.hpp`, together with the condition-variable signals the
region emits.

  * `retire i`     — lines 32-36: if the queue is empty and
                     `num_workers_ > min_workers_`, mark the slot inactive,
                     decrement `num_workers_` and exit the loop.
  * `enterWait i`  — lines 39-42: otherwise increment `free_workers_` and
                     enter `workers_cv_.wait`.
  * `wakeExit i`   — lines 42-48: wake with the predicate true and
                     `terminated_` set: exit the loop without touching any
                     shared variable.
  * `wakeTake i`   — lines 42-56: wake with a task available and the pool
                     not terminated: decrement `free_workers_`, pop the
                     queue and notify one waiter of `submit_cv_`.
  * `finishTask i` — line 58 and the jump back to line 26: finish running
                     the task outside the lock.
  * `enqueue`      — lines 117-130: a submitter whose wait predicate
                     `tasks_.size() < max_qsize_` holds runs the
                     enqueue/spawn/notify region (this region never reads
                     `terminated_`).
  * `terminateCall`— lines 133-138: set `terminated_` and broadcast
                     `workers_cv_`; a repeated call returns at line 135
                     without notifying anybody. -/
def stepFn (s : GState) : Label → Option (GState × List Sig)
  | .retire i => do
      let w ← s.workers.get? i
      if w.phase = .top ∧ s.pool.tasks = 0 ∧ s.pool.min_workers < s.pool.num_workers then
        some ({ pool := { s.pool with
                            active_workers := s.pool.active_workers.set w.slot false,
                            num_workers := s.pool.num_workers - 1 },
                workers := s.workers.set i ⟨w.slot, .exitedRetired⟩ }, [])
      else none
  | .enterWait i => do
      let w ← s.workers.get? i
      if w.phase = .top ∧ ¬(s.pool.tasks = 0 ∧ s.pool.min_workers < s.pool.num_workers) then
        some ({ pool := { s.pool with free_workers := s.pool.free_workers + 1 },
                workers := s.workers.set i ⟨w.slot, .waiting⟩ }, [])
      else none
  | .wakeTake i => do
      let w ← s.workers.get? i
      if w.phase = .waiting ∧ s.pool.tasks ≠ 0 ∧ s.pool.terminated = false then
        some ({ pool := { s.pool with
                            free_workers := s.pool.free_workers - 1,
                            tasks := s.pool.tasks - 1 },
                workers := s.workers.set i ⟨w.slot, .running⟩ }, [Sig.submitCV])
      else none
  | .wakeExit i => do
      let w ← s.workers.get? i
      if w.phase = .waiting ∧ (s.pool.tasks ≠ 0 ∨ s.pool.terminated = true)
          ∧ s.pool.terminated = true then
        some ({ s with workers := s.workers.set i ⟨w.slot, .exitedTerm⟩ }, [])
      else none
  | .finishTask i => do
      let w ← s.workers.get? i
      if w.phase = .running then
        some ({ s with workers := s.workers.set i ⟨w.slot, .top⟩ }, [])
      else none
  | .enqueue =>
      if (s.pool.tasks : Int) < sizeT s.pool.max_qsize then
        some (enqueueStep s)
      else none
  | .terminateCall =>
      if s.pool.terminated then some (s, [])
      else some ({ s with pool := { s.pool with terminated := true } }, [Sig.workersCV])

/-- Reachability in the step system from a given initial state. -/
inductive Reach (s0 : GState) : GState → Prop
  | refl : Reach s0 s0
  | tail {s s' : GState} {l : Label} {sigs : List Sig} :
      Reach s0 s → stepFn s l = some (s', sigs) → Reach s0 s'

/-- Possible outcomes of constructing a `ThreadPool`.
`invalidConfiguration` is the outcome the specification describes for
out-of-range sizes; the constructor (lines 76-84) contains no validation,
so the embedding never produces it (claim C1).  `outOfRange` is the actual
failure: an out-of-bounds `workers_[id]` / `active_workers_[id]` access in
`startWorker` when `min_workers_ > max_workers_`, or a failing slot-table
allocation when `max_workers_ < 0`. -/
inductive CtorResult
  | constructed (s : GState)
  | invalidConfiguration
  | outOfRange
  deriving DecidableEq, Repr

/-- True exactly on a successful construction outcome. -/
def CtorResult.isConstructed : CtorResult → Bool
  | .constructed _ => true
  | _ => false

/-- The constructor loop of line 83: `for (id = 0; id < min_workers_; id++)
startWorker(id)`, with the out-of-bounds access surfaced when `id` reaches
the slot-table length. -/
def constructFrom : Nat → Nat → GState → CtorResult
  | _, 0, s => .constructed s
  | id, n + 1, s =>
      if id < s.pool.active_workers.length then
        constructFrom (id + 1) n (startWorker id s)
      else .outOfRange

/-- State produced by the member initializers of lines 76-81: flags and
counters zeroed, slot table of `max_workers_` inactive slots, empty queue,
no worker threads yet. -/
def blankState (min_workers max_workers max_qsize : Int) : GState :=
  { pool := { terminated := false
              min_workers := min_workers
              max_workers := max_workers
              max_qsize := max_qsize
              num_workers := 0
              free_workers := 0
              active_workers := List.replicate max_workers.toNat false
              tasks := 0 },
    workers := [] }

/-- `ThreadPool::ThreadPool` (lines 76-84): allocate the slot table and
spawn `min_workers_` workers synchronously.  No input validation is
performed. -/
def construct (min_workers max_workers max_qsize : Int) : CtorResult :=
  if max_workers < 0 then .outOfRange
  else constructFrom 0 min_workers.toNat (blankState min_workers max_workers max_qsize)

/-- Outcome of a `submit` call as seen by the caller. -/
inductive SubmitRes
  | errTerminated
  | enqueued
  | blockedAwaitingSpace
  deriving DecidableEq, Repr

/-- `ThreadPool::submit` (lines 106-131) as one call: under the lock, read
`terminated_` (line 114) and throw if set; otherwise, if the queue is below
capacity, run the enqueue region immediately, else block on `submit_cv_`
(line 117; the blocked call later completes as the `Label.enqueue` step).
The pair returned is the state after the call's first lock-held region and
the signals it emitted. -/
def submit (s : GState) : SubmitRes × GState × List Sig :=
  if s.pool.terminated = true then (.errTerminated, s, [])
  else if (s.pool.tasks : Int) < sizeT s.pool.max_qsize then
    let r := enqueueStep s
    (.enqueued, r.1, r.2)
  else (.blockedAwaitingSpace, s, [])

/-- Output of `ThreadPool::printStatus` (lines 140-155), abstracted from
text to the data printed: a terminated pool prints only the terminated
message (lines 142-143); otherwise the configuration, counters, queue
length and slot bitmap are printed (lines 145-153). -/
inductive StatusOutput
  | terminatedMsg
  | snapshot (min_workers max_workers : Int) (tasks : Nat)
      (num_workers free_workers : Int) (active_workers : List Bool)
  deriving DecidableEq, Repr

/-- True exactly on the full-snapshot output. -/
def StatusOutput.isSnapshot : StatusOutput → Bool
  | .snapshot _ _ _ _ _ _ => true
  | _ => false

/-- `ThreadPool::printStatus` (lines 140-155): the printed data together
with the (unchanged) state after the call. -/
def printStatus (s : GState) : StatusOutput × GState :=
  if s.pool.terminated then (.terminatedMsg, s)
  else (.snapshot s.pool.min_workers s.pool.max_workers s.pool.tasks
          s.pool.num_workers s.pool.free_workers s.pool.active_workers, s)

/-- Slot table with `L` slots of which the first `k` are active: the shape
the constructor loop produces. -/
def activeInit (L k : Nat) : List Bool :=
  (List.range L).map (fun j => decide (j < k))

/-- Closed form of the state after the constructor has spawned workers in
slots `0 .. k-1`. -/
def mkInit (m M q : Int) (k : Nat) : GState :=
  { pool := { terminated := false
              min_workers := m
              max_workers := M
              max_qsize := q
              num_workers := (k : Int)
              free_workers := 0
              active_workers := activeInit M.toNat k
              tasks := 0 },
    workers := (List.range k).map (fun j => ⟨j, .top⟩) }

/-- Number of workers in the history list currently in phase `p`. -/
def cntPhase (ws : List WorkerT) (p : WPhase) : Nat :=
  ws.countP (fun w => w.phase = p)

/-- Number of active slots. -/
def activeCount (l : List Bool) : Nat :=
  l.countP (fun b => b)

/-- Worker record at position `i` of the history list (meaningful for
`i < s.workers.length`). -/
def wAt (s : GState) (i : Nat) : WorkerT :=
  s.workers.getD i ⟨0, .top⟩

/-- Activity bit of slot `j` (meaningful for `j` below the table length). -/
def activeAt (s : GState) (j : Nat) : Bool :=
  s.pool.active_workers.getD j false

/-- Well-formedness invariant of the pool state.  It packages the
configuration range of the C++ `int` fields, the counter accounting
(`free_workers_` counts waiting workers plus workers that left through the
termination path without decrementing it, `num_workers_` counts non-retired
workers), the counter and queue bounds of the specification, the slot-table
accounting, and the slot/worker association: a live worker's slot is
active, live workers occupy distinct slots, and (before termination) every
active slot has a live worker. -/
def WF (s : GState) : Prop :=
  0 ≤ s.pool.min_workers
  ∧ 0 < s.pool.max_qsize
  ∧ s.pool.max_qsize < 2 ^ 64
  ∧ s.pool.free_workers =
      (cntPhase s.workers .waiting : Int) + (cntPhase s.workers .exitedTerm : Int)
  ∧ s.pool.num_workers =
      (cntPhase s.workers .top : Int) + (cntPhase s.workers .waiting : Int)
        + (cntPhase s.workers .running : Int) + (cntPhase s.workers .exitedTerm : Int)
  ∧ s.pool.num_workers ≤ s.pool.max_workers
  ∧ s.pool.min_workers ≤ s.pool.num_workers
  ∧ (s.pool.tasks : Int) ≤ s.pool.max_qsize
  ∧ (s.pool.active_workers.length : Int) = s.pool.max_workers
  ∧ (activeCount s.pool.active_workers : Int) = s.pool.num_workers
  ∧ (∀ i < s.workers.length,
      (wAt s i).phase.live = true → activeAt s (wAt s i).slot = true)
  ∧ (∀ i < s.workers.length, ∀ j < s.workers.length, i ≠ j →
      (wAt s i).phase.live = true → (wAt s j).phase.live = true →
      (wAt s i).slot ≠ (wAt s j).slot)
  ∧ (s.pool.terminated = false →
      ∀ j < s.pool.active_workers.length, activeAt s j = true →
        ∃ i, i < s.workers.length ∧ (wAt s i).slot = j ∧ (wAt s i).phase.live = true)

/-- Error raised by `submit` on a terminated pool. -/
inductive SubmitErr
  | poolTerminated
  deriving DecidableEq, Repr

/-- Modelled from the spec: the task closure built by the variadic `submit`
overload — the zero-argument callable binding the submitted callable and
its arguments by value, paired with the index of its result channel. -/
structure VTask where
  closure : Unit → Int
  chan : Nat

/-- Modelled from the spec: the submission-facing pool state for the
variadic `submit` overload called by `src/example.cpp` (lines 37-43), which
is not part of `src/` (only the `packaged_task` overload is): the
termination flag, the FIFO task queue, and the store of result channels
(`none` = unfulfilled). -/
structure VPool where
  terminated : Bool
  queue : List VTask
  channels : List (Option Int)

/-- Modelled from the spec: `submit(callable, arguments...)` — binds the
callable and its arguments by value into a zero-argument task closure,
allocates a fresh (unfulfilled) result channel, appends the task to the
queue, and returns the reader half of the channel immediately, without
executing the task.  Fails with `PoolTerminated` on a terminated pool. -/
def vsubmit (f : List Int → Int) (args : List Int) (p : VPool) :
    Except SubmitErr (Nat × VPool) :=
  if p.terminated then .error .poolTerminated
  else .ok (p.channels.length,
    { p with queue := p.queue ++ [⟨fun _ => f args, p.channels.length⟩],
             channels := p.channels ++ [none] })

/-- Modelled from the spec: a worker executes a dequeued task outside the
lock and fulfills its result channel with the closure's return value. -/
def vrunTask (t : VTask) (p : VPool) : VPool :=
  { p with channels := p.channels.set t.chan (some (t.closure ())) }

/-- Modelled from the spec: the blocking read of a result channel: the
value once the task has executed, `none` while the reader would still
block. -/
def vread (p : VPool) (h : Nat) : Option Int :=
  p.channels.getD h none

/-- Concrete state: a terminated pool with one idle worker (used as a
witness input). -/
def sTerminatedIdle : GState :=
  ⟨⟨true, 1, 2, 3, 1, 0, [true, false], 0⟩, [⟨0, .top⟩]⟩

/-- Concrete state: the pool `construct 1 1 1` produces. -/
def sOneWorker : GState :=
  ⟨⟨false, 1, 1, 1, 1, 0, [true], 0⟩, [⟨0, .top⟩]⟩

/-- Concrete state: `sOneWorker` after a `terminate()` call. -/
def sOneWorkerTerminated : GState :=
  ⟨⟨true, 1, 1, 1, 1, 0, [true], 0⟩, [⟨0, .top⟩]⟩

/-- Concrete state: a terminated pool with queue space and no workers
(used as a witness input for the post-wait enqueue). -/
def sTerminatedEmpty : GState :=
  ⟨⟨true, 0, 1, 1, 0, 0, [false], 0⟩, []⟩

/-- Concrete state: a terminated pool whose queue is full, with one worker
blocked in `workers_cv_.wait` (used as a witness input). -/
def sTerminatedFull : GState :=
  ⟨⟨true, 1, 1, 1, 1, 1, [true], 1⟩, [⟨0, .waiting⟩]⟩

/-- Modelled from the spec: the pool state immediately after a successful
variadic `submit`: the bound task appended to the queue, one fresh
unfulfilled result channel allocated. -/
def vafterSubmit (f : List Int → Int) (args : List Int) (p : VPool) : VPool :=
  { p with queue := p.queue ++ [⟨fun _ => f args, p.channels.length⟩],
           channels := p.channels ++ [none] }

/-- Concrete state: `sTerminatedFull` after its waiting worker observes the
termination flag and exits. -/
def sTerminatedFullExited : GState :=
  ⟨⟨true, 1, 1, 1, 1, 1, [true], 1⟩, [⟨0, .exitedTerm⟩]⟩

/-- Concrete state: `sOneWorker` with its worker waiting for work. -/
def sWaiting : GState :=
  ⟨⟨false, 1, 1, 1, 1, 1, [true], 0⟩, [⟨0, .waiting⟩]⟩

/-- Concrete state: `sWaiting` after `terminate()`. -/
def sWaitingTerminated : GState :=
  ⟨⟨true, 1, 1, 1, 1, 1, [true], 0⟩, [⟨0, .waiting⟩]⟩

/-- Concrete state: `sWaitingTerminated` after the worker exits through the
termination path of line 48, leaving its slot still marked active. -/
def sExitedStale : GState :=
  ⟨⟨true, 1, 1, 1, 1, 1, [true], 0⟩, [⟨0, .exitedTerm⟩]⟩

/-- Concrete state: a fresh zero-worker pool about to receive its first
task (used as a witness input for the spawn decision). -/
def sSpawnReady : GState :=
  ⟨⟨false, 0, 1, 1, 0, 0, [false], 0⟩, []⟩

/-! ### Helper lemmas -/

lemma sizeT_eq_self {x : Int} (h0 : 0 ≤ x) (h1 : x < 2 ^ 64) : sizeT x = x :=
  Int.emod_eq_of_lt h0 h1

lemma constructFrom_ne_invalidConfiguration :
    ∀ (n id : Nat) (s : GState), constructFrom id n s ≠ .invalidConfiguration := by
  intro n
  induction n with
  | zero => intro id s h; simp [constructFrom] at h
  | succ n ih =>
      intro id s h
      rw [constructFrom] at h
      split at h
      · exact ih _ _ h
      · simp at h

lemma length_activeInit (L k : Nat) : (activeInit L k).length = L := by
  simp [activeInit]

lemma getElem?_activeInit (L k j : Nat) :
    (activeInit L k)[j]? = if j < L then some (decide (j < k)) else none := by
  by_cases h : j < L
  · simp [activeInit, List.getElem?_map, List.getElem?_range h, h]
  · simp [activeInit, List.getElem?_map, h]
    omega

lemma activeInit_set (L k : Nat) (h : k < L) :
    (activeInit L k).set k true = activeInit L (k + 1) := by
  apply List.ext_getElem?
  intro j
  rw [List.getElem?_set]
  rcases eq_or_ne k j with rfl | hne
  · rw [if_pos rfl, if_pos (by rw [length_activeInit]; exact h), getElem?_activeInit,
        if_pos h]
    simp
  · rw [if_neg hne, getElem?_activeInit, getElem?_activeInit]
    rcases Nat.lt_or_ge j L with hj | hj
    · simp only [if_pos hj]
      congr 1
      simp only [decide_eq_decide]
      omega
    · simp [Nat.not_lt.mpr hj]

lemma startWorker_mkInit (m M q : Int) (k : Nat) (h : k < M.toNat) :
    startWorker k (mkInit m M q k) = mkInit m M q (k + 1) := by
  unfold startWorker mkInit
  rw [activeInit_set _ _ h]
  simp only [List.range_succ, List.map_append, List.map_cons, List.map_nil]
  norm_num

lemma constructFrom_run (m M q : Int) :
    ∀ (n id : Nat), id ≤ M.toNat →
      constructFrom id n (mkInit m M q id) =
        if id + n ≤ M.toNat then .constructed (mkInit m M q (id + n)) else .outOfRange := by
  intro n
  induction n with
  | zero => intro id hid; simp [constructFrom, hid]
  | succ n ih =>
      intro id hid
      rw [constructFrom]
      have hlen : (mkInit m M q id).pool.active_workers.length = M.toNat := by
        simp [mkInit, length_activeInit]
      rw [hlen]
      rcases Nat.lt_or_ge id M.toNat with hlt | hge
      · rw [if_pos hlt, startWorker_mkInit m M q id hlt, ih (id + 1) hlt]
        have : id + 1 + n = id + (n + 1) := by omega
        rw [this]
      · have : ¬ id < M.toNat := Nat.not_lt.mpr hge
        rw [if_neg this, if_neg (by omega)]

lemma blankState_eq_mkInit (m M q : Int) :
    blankState m M q = mkInit m M q 0 := by
  unfold blankState mkInit
  have hact : activeInit M.toNat 0 = List.replicate M.toNat false := by
    apply List.ext_getElem?
    intro j
    rw [getElem?_activeInit, List.getElem?_replicate]
    rcases Nat.lt_or_ge j M.toNat with hj | hj
    · simp [hj]
    · simp [Nat.not_lt.mpr hj]
  rw [hact]
  simp

lemma construct_eq_mkInit (m M q : Int) (h0 : 0 ≤ m) (hmM : m ≤ M) :
    construct m M q = .constructed (mkInit m M q m.toNat) := by
  unfold construct
  rw [if_neg (by omega), blankState_eq_mkInit,
      constructFrom_run m M q m.toNat 0 (Nat.zero_le _)]
  rw [if_pos (by omega)]
  norm_num

lemma construct_outOfRange_of_min_gt_max (m M q : Int) (h0 : 0 ≤ M) (hMm : M < m) :
    construct m M q = .outOfRange := by
  unfold construct
  rw [if_neg (by omega), blankState_eq_mkInit,
      constructFrom_run m M q m.toNat 0 (Nat.zero_le _)]
  rw [if_neg (by omega)]

lemma addWorker_terminated (s : GState) :
    (addWorker s).pool.terminated = s.pool.terminated := by
  cases h : scanInactive s.pool.active_workers <;> simp [addWorker, h, startWorker]

lemma addWorker_tasks (s : GState) :
    (addWorker s).pool.tasks = s.pool.tasks := by
  cases h : scanInactive s.pool.active_workers <;> simp [addWorker, h, startWorker]

lemma enqueueStep_sigs (s : GState) : (enqueueStep s).2 = [Sig.workersCV] := rfl

lemma enqueueStep_tasks (s : GState) :
    (enqueueStep s).1.pool.tasks = s.pool.tasks + 1 := by
  unfold enqueueStep
  dsimp only
  split
  · rw [addWorker_tasks]
  · rfl

lemma enqueueStep_terminated (s : GState) :
    (enqueueStep s).1.pool.terminated = s.pool.terminated := by
  unfold enqueueStep
  dsimp only
  split
  · rw [addWorker_terminated]
  · rfl

lemma countP_set {α : Type} (l : List α) (i : Nat) (a b : α) (p : α → Bool)
    (h : l[i]? = some a) :
    (l.set i b).countP p + (if p a = true then 1 else 0)
      = l.countP p + (if p b = true then 1 else 0) := by
  induction l generalizing i with
  | nil => simp at h
  | cons x xs ih =>
      cases i with
      | zero =>
          simp only [List.getElem?_cons_zero, Option.some.injEq] at h
          subst h
          simp only [List.set_cons_zero, List.countP_cons]
          omega
      | succ n =>
          simp only [List.getElem?_cons_succ] at h
          simp only [List.set_cons_succ, List.countP_cons]
          have := ih n h
          omega

lemma getElem?_some_lt {α : Type} {l : List α} {i : Nat} {a : α}
    (h : l[i]? = some a) : i < l.length := by
  by_contra hc
  rw [List.getElem?_eq_none (by omega)] at h
  exact absurd h (by simp)

lemma getD_of_getElem? {α : Type} {l : List α} {i : Nat} {a : α} (d : α)
    (h : l[i]? = some a) : l.getD i d = a := by
  rw [List.getD_eq_getElem?_getD, h]
  rfl

lemma getD_set_self {α : Type} (l : List α) (i : Nat) (a d : α) (h : i < l.length) :
    (l.set i a).getD i d = a := by
  rw [List.getD_eq_getElem?_getD, List.getElem?_set, if_pos rfl, if_pos h]
  rfl

lemma getD_set_ne {α : Type} (l : List α) {i j : Nat} (a d : α) (h : i ≠ j) :
    (l.set i a).getD j d = l.getD j d := by
  rw [List.getD_eq_getElem?_getD, List.getElem?_set, if_neg h,
      ← List.getD_eq_getElem?_getD]

lemma getD_false_eq_true {l : List Bool} {j : Nat} (h : l.getD j false = true) :
    l[j]? = some true := by
  rcases hj : l[j]? with _ | b
  · rw [List.getD_eq_getElem?_getD, hj] at h
    simp at h
  · rw [List.getD_eq_getElem?_getD, hj] at h
    simpa using congrArg some h

lemma cntPhase_set (ws : List WorkerT) (i : Nat) (w v : WorkerT) (p : WPhase)
    (h : ws[i]? = some w) :
    cntPhase (ws.set i v) p + (if w.phase = p then 1 else 0)
      = cntPhase ws p + (if v.phase = p then 1 else 0) := by
  unfold cntPhase
  have := countP_set ws i w v (fun x => x.phase = p) h
  simpa using this

lemma activeCount_set (l : List Bool) (i : Nat) (b c : Bool)
    (h : l[i]? = some b) :
    activeCount (l.set i c) + (if b = true then 1 else 0)
      = activeCount l + (if c = true then 1 else 0) := by
  unfold activeCount
  exact countP_set l i b c (fun x => x) h

lemma wAt_eq {s : GState} {i : Nat} {w : WorkerT} (h : s.workers[i]? = some w) :
    wAt s i = w :=
  getD_of_getElem? _ h

/-! ### Claim C1 -/

/-- C1, counterexample.  The claim states the constructor raises
`InvalidConfiguration` when `max_queue_size` is not positive and when
`min_workers > max_workers`.  The constructor (lines 76-84) contains no
validation: `construct 0 2 0` succeeds, and `construct 5 2 1` fails with an
out-of-bounds slot access, not `InvalidConfiguration`. -/
theorem construct_no_validation_counterexample :
    construct 0 2 0 = .constructed (blankState 0 2 0)
    ∧ construct 0 2 0 ≠ .invalidConfiguration
    ∧ construct 5 2 1 = .outOfRange
    ∧ construct 5 2 1 ≠ .invalidConfiguration := by decide

/-- C1, amended.  Construction performs no validation and has no
`InvalidConfiguration` error path at all: every triple with
`0 ≤ min_workers ≤ max_workers` succeeds, including `max_queue_size ≤ 0`;
for `min_workers > max_workers ≥ 0` the constructor loop performs an
out-of-bounds slot access, and for `max_workers < 0` the slot-table
allocation fails — neither is a clean validation error. -/
theorem construct_performs_no_validation (m M q : Int) :
    construct m M q ≠ .invalidConfiguration
    ∧ (0 ≤ m → m ≤ M → (construct m M q).isConstructed = true)
    ∧ (0 ≤ M → M < m → construct m M q = .outOfRange)
    ∧ (M < 0 → construct m M q = .outOfRange) := by
  refine ⟨?_, ?_, ?_, ?_⟩
  · unfold construct
    split
    · simp
    · exact constructFrom_ne_invalidConfiguration _ _ _
  · intro h0 hmM
    rw [construct_eq_mkInit m M q h0 hmM]
    rfl
  · intro h0 hMm
    exact construct_outOfRange_of_min_gt_max m M q h0 hMm
  · intro h
    unfold construct
    rw [if_pos h]

/-- C1, witness for `construct_performs_no_validation`. -/
theorem construct_performs_no_validation_witness :
    (construct 1 2 5).isConstructed = true
    ∧ construct 3 2 5 = .outOfRange
    ∧ construct 0 (-1) 5 = .outOfRange :=
  ⟨(construct_performs_no_validation 1 2 5).2.1 (by decide) (by decide),
   (construct_performs_no_validation 3 2 5).2.2.1 (by decide) (by decide),
   (construct_performs_no_validation 0 (-1) 5).2.2.2 (by decide)⟩

/-! ### Claim C4 -/

/-- C4.  A `submit` call on a pool whose `terminated_` flag is set fails
with the `PoolTerminated` error: the flag is read inside the lock-held
region (line 114, under the `unique_lock` of line 108), no task is
enqueued, the pool state is returned unchanged, and no signal is emitted —
the error is atomic and leaves no side effect. -/
theorem submit_on_terminated_pool_is_atomic_error (s : GState)
    (h : s.pool.terminated = true) :
    submit s = (.errTerminated, s, []) := by
  unfold submit
  rw [if_pos h]

/-- C4, witness. -/
theorem submit_on_terminated_pool_witness :
    sTerminatedIdle.pool.terminated = true
    ∧ submit sTerminatedIdle = (.errTerminated, sTerminatedIdle, []) :=
  ⟨by decide, submit_on_terminated_pool_is_atomic_error sTerminatedIdle (by decide)⟩

/-! ### Claim C9 -/

/-- C9, counterexample.  The claim states `printStatus` reports the full
snapshot (configuration, counters, queue length, slot bitmap) for every
pool state including the terminated state.  On a reachable terminated pool
it prints only the terminated message (lines 142-143): no snapshot at
all. -/
theorem printStatus_terminated_counterexample :
    construct 1 1 1 = .constructed sOneWorker
    ∧ stepFn sOneWorker .terminateCall = some (sOneWorkerTerminated, [Sig.workersCV])
    ∧ (printStatus sOneWorkerTerminated).1 = .terminatedMsg
    ∧ (printStatus sOneWorkerTerminated).1.isSnapshot = false := by decide

/-- C9, amended.  `printStatus` is read-only (it returns the state
unchanged) and lock-protected; on a non-terminated pool it reports the full
snapshot — `min_workers_`, `max_workers_`, queue length, `num_workers_`,
`free_workers_` and the slot bitmap — while on a terminated pool it reports
only the termination message. -/
theorem printStatus_readonly_snapshot (s : GState) :
    (printStatus s).2 = s
    ∧ (s.pool.terminated = false →
        (printStatus s).1 = .snapshot s.pool.min_workers s.pool.max_workers
          s.pool.tasks s.pool.num_workers s.pool.free_workers s.pool.active_workers)
    ∧ (s.pool.terminated = true → (printStatus s).1 = .terminatedMsg) := by
  unfold printStatus
  rcases h : s.pool.terminated <;> simp [h]

/-- C9, witness for `printStatus_readonly_snapshot`. -/
theorem printStatus_readonly_snapshot_witness :
    (printStatus sOneWorker).2 = sOneWorker
    ∧ (printStatus sOneWorker).1 = .snapshot 1 1 0 1 0 [true]
    ∧ (printStatus sOneWorkerTerminated).1 = .terminatedMsg :=
  ⟨(printStatus_readonly_snapshot sOneWorker).1,
   (printStatus_readonly_snapshot sOneWorker).2.1 (by decide),
   (printStatus_readonly_snapshot sOneWorkerTerminated).2.2 (by decide)⟩

/-! ### Claim C10 -/

/-- C10.  `submit` reads `terminated_` once (line 114), before the
queue-space wait of line 117; the post-wait region (lines 123-130) never
re-reads it.  Hence a submitter that was blocked on the slot-available wait
when `terminate()` set the flag will, as soon as queue space is available,
enqueue its task into the terminated pool, pulse `workers_cv_`, and return
without raising `PoolTerminated`. -/
theorem submit_enqueues_after_wait_despite_termination (s : GState)
    (hterm : s.pool.terminated = true)
    (hspace : (s.pool.tasks : Int) < sizeT s.pool.max_qsize) :
    stepFn s .enqueue = some ((enqueueStep s).1, [Sig.workersCV])
    ∧ (enqueueStep s).1.pool.tasks = s.pool.tasks + 1
    ∧ (enqueueStep s).1.pool.terminated = true := by
  refine ⟨?_, enqueueStep_tasks s, by rw [enqueueStep_terminated]; exact hterm⟩
  simp only [stepFn, if_pos hspace]
  exact congrArg some (Prod.ext rfl (enqueueStep_sigs s))

/-- C10, witness. -/
theorem submit_enqueues_after_wait_witness :
    stepFn sTerminatedEmpty .enqueue = some ((enqueueStep sTerminatedEmpty).1, [Sig.workersCV])
    ∧ (enqueueStep sTerminatedEmpty).1.pool.tasks = sTerminatedEmpty.pool.tasks + 1
    ∧ (enqueueStep sTerminatedEmpty).1.pool.terminated = true :=
  submit_enqueues_after_wait_despite_termination sTerminatedEmpty (by decide) (by decide)

/-! ### Claim C2 -/

/-- C2, theorem evaluating the code at the failing scenario.  Once the pool
is terminated while the queue is full, every step of the system keeps the
flag set and the queue full, and no step ever emits the slot-available
signal `submit_cv_`: `terminate()` (lines 133-138) notifies only
`workers_cv_`, and a worker that wakes after termination exits at line 48
without dequeuing or reaching the `submit_cv_.notify_one()` of line 56.  A
submitter blocked inside the wait of line 117 therefore sleeps forever,
contradicting the claim that every path that can terminate the pool pulses
the signal that submitter waits on. -/
theorem terminate_never_wakes_blocked_submitters
    (s s' : GState) (l : Label) (sigs : List Sig)
    (hstep : stepFn s l = some (s', sigs))
    (hterm : s.pool.terminated = true)
    (hq1 : 1 ≤ s.pool.max_qsize) (hq2 : s.pool.max_qsize < 2 ^ 64)
    (hfull : s.pool.max_qsize ≤ (s.pool.tasks : Int)) :
    s'.pool.terminated = true ∧ s'.pool.max_qsize = s.pool.max_qsize
      ∧ s'.pool.max_qsize ≤ (s'.pool.tasks : Int) ∧ Sig.submitCV ∉ sigs := by
  cases l with
  | retire i =>
      rcases hw : s.workers[i]? with _ | w <;> simp [stepFn, hw] at hstep
      obtain ⟨⟨hg1, hg2, hg3⟩, hs', hsig⟩ := hstep
      rw [hg2] at hfull
      simp at hfull
      omega
  | enterWait i =>
      rcases hw : s.workers[i]? with _ | w <;> simp [stepFn, hw] at hstep
      obtain ⟨hg, hs', hsig⟩ := hstep
      subst hs'
      simp [hterm, hsig, hfull, hq1]
  | wakeTake i =>
      rcases hw : s.workers[i]? with _ | w <;> simp [stepFn, hw, hterm] at hstep
  | wakeExit i =>
      rcases hw : s.workers[i]? with _ | w <;> simp [stepFn, hw, hterm] at hstep
      obtain ⟨hg, hs', hsig⟩ := hstep
      subst hs'
      simp [hterm, hsig, hfull, hq1]
  | finishTask i =>
      rcases hw : s.workers[i]? with _ | w <;> simp [stepFn, hw] at hstep
      obtain ⟨hg, hs', hsig⟩ := hstep
      subst hs'
      simp [hterm, hsig, hfull, hq1]
  | enqueue =>
      simp only [stepFn] at hstep
      rw [sizeT_eq_self (by omega) hq2] at hstep
      split_ifs at hstep with hg
      omega
  | terminateCall =>
      simp [stepFn, hterm] at hstep
      obtain ⟨hs', hsig⟩ := hstep
      subst hs'
      simp [hterm, hsig, hfull, hq1]

lemma wf_retire (s s' : GState) (sigs : List Sig) (i : Nat)
    (h : WF s) (hstep : stepFn s (.retire i) = some (s', sigs)) : WF s' := by
  obtain ⟨hmin0, hq0, hq64, hfree, hnum, hnmax, hnmin, htq, hlen, hcnt, hla, huniq, hal⟩ := h
  simp only [wAt, activeAt] at hla huniq hal
  rcases hw : s.workers[i]? with _ | w <;> simp [stepFn, hw] at hstep
  obtain ⟨⟨hph, hempty, hgt⟩, hs', hsig⟩ := hstep
  subst hs'
  have hilt : i < s.workers.length := getElem?_some_lt hw
  have hgi : s.workers.getD i ⟨0, .top⟩ = w := getD_of_getElem? _ hw
  have hlivew : (s.workers.getD i ⟨0, .top⟩).phase.live = true := by rw [hgi, hph]; rfl
  have hactw : s.pool.active_workers[w.slot]? = some true := by
    apply getD_false_eq_true
    have := hla i hilt hlivew
    rw [hgi] at this
    exact this
  have hslot_lt : w.slot < s.pool.active_workers.length := getElem?_some_lt hactw
  have ctop := cntPhase_set s.workers i w ⟨w.slot, .exitedRetired⟩ .top hw
  have cw := cntPhase_set s.workers i w ⟨w.slot, .exitedRetired⟩ .waiting hw
  have cr := cntPhase_set s.workers i w ⟨w.slot, .exitedRetired⟩ .running hw
  have ce := cntPhase_set s.workers i w ⟨w.slot, .exitedRetired⟩ .exitedTerm hw
  rw [hph] at ctop cw cr ce
  simp at ctop cw cr ce
  have cact := activeCount_set s.pool.active_workers w.slot true false hactw
  simp at cact
  unfold WF
  simp only [wAt, activeAt]
  refine ⟨hmin0, hq0, hq64, by omega, by omega, by omega, by omega, htq,
    by rw [List.length_set]; exact hlen, by omega, ?_, ?_, ?_⟩
  · intro k hk hlive
    rw [List.length_set] at hk
    rcases eq_or_ne k i with rfl | hki
    · rw [getD_set_self s.workers k ⟨w.slot, .exitedRetired⟩ ⟨0, .top⟩ hilt] at hlive
      exact absurd hlive (by simp [WPhase.live])
    · rw [getD_set_ne s.workers _ _ (Ne.symm hki)] at hlive ⊢
      have hne : (s.workers.getD k ⟨0, .top⟩).slot ≠ w.slot := by
        have := huniq k hk i hilt hki hlive hlivew
        rw [hgi] at this
        exact this
      rw [getD_set_ne s.pool.active_workers _ _ (Ne.symm hne)]
      exact hla k hk hlive
  · intro k hk l hl hkl hlk hll
    rw [List.length_set] at hk hl
    rcases eq_or_ne k i with rfl | hki
    · rw [getD_set_self s.workers k ⟨w.slot, .exitedRetired⟩ ⟨0, .top⟩ hilt] at hlk
      exact absurd hlk (by simp [WPhase.live])
    · rcases eq_or_ne l i with rfl | hli
      · rw [getD_set_self s.workers l ⟨w.slot, .exitedRetired⟩ ⟨0, .top⟩ hilt] at hll
        exact absurd hll (by simp [WPhase.live])
      · rw [getD_set_ne s.workers _ _ (Ne.symm hki)] at hlk ⊢
        rw [getD_set_ne s.workers _ _ (Ne.symm hli)] at hll ⊢
        exact huniq k hk l hl hkl hlk hll
  · intro hterm' j hj hact'
    rw [List.length_set] at hj
    rcases eq_or_ne j w.slot with hjw | hjw
    · rw [hjw, getD_set_self s.pool.active_workers w.slot false false hslot_lt] at hact'
      exact absurd hact' (by simp)
    · rw [getD_set_ne s.pool.active_workers _ _ (fun hh => hjw hh.symm)] at hact'
      obtain ⟨k, hk, hkslot, hklive⟩ := hal hterm' j hj hact'
      have hki : k ≠ i := by
        intro hh
        subst hh
        rw [hgi] at hkslot
        exact hjw hkslot.symm
      refine ⟨k, by rw [List.length_set]; exact hk, ?_, ?_⟩
      · rw [getD_set_ne s.workers _ _ (Ne.symm hki)]
        exact hkslot
      · rw [getD_set_ne s.workers _ _ (Ne.symm hki)]
        exact hklive

lemma getD_set_slot_eq (ws : List WorkerT) (i : Nat) (w : WorkerT) (ph' : WPhase)
    (hw : ws[i]? = some w) (k : Nat) :
    ((ws.set i ⟨w.slot, ph'⟩).getD k ⟨0, .top⟩).slot = (ws.getD k ⟨0, .top⟩).slot := by
  rcases eq_or_ne k i with rfl | hki
  · rw [getD_set_self ws k ⟨w.slot, ph'⟩ ⟨0, .top⟩ (getElem?_some_lt hw),
        getD_of_getElem? _ hw]
  · rw [getD_set_ne ws _ _ (Ne.symm hki)]

lemma getD_set_live_eq (ws : List WorkerT) (i : Nat) (w : WorkerT) (ph' : WPhase)
    (hw : ws[i]? = some w) (hl : ph'.live = w.phase.live) (k : Nat) :
    ((ws.set i ⟨w.slot, ph'⟩).getD k ⟨0, .top⟩).phase.live
      = (ws.getD k ⟨0, .top⟩).phase.live := by
  rcases eq_or_ne k i with rfl | hki
  · rw [getD_set_self ws k ⟨w.slot, ph'⟩ ⟨0, .top⟩ (getElem?_some_lt hw),
        getD_of_getElem? _ hw]
    exact hl
  · rw [getD_set_ne ws _ _ (Ne.symm hki)]

lemma wf_enterWait (s s' : GState) (sigs : List Sig) (i : Nat)
    (h : WF s) (hstep : stepFn s (.enterWait i) = some (s', sigs)) : WF s' := by
  obtain ⟨hmin0, hq0, hq64, hfree, hnum, hnmax, hnmin, htq, hlen, hcnt, hla, huniq, hal⟩ := h
  simp only [wAt, activeAt] at hla huniq hal
  rcases hw : s.workers[i]? with _ | w <;> simp [stepFn, hw] at hstep
  obtain ⟨⟨hph, hng⟩, hs', hsig⟩ := hstep
  subst hs'
  have hilt : i < s.workers.length := getElem?_some_lt hw
  have ctop := cntPhase_set s.workers i w ⟨w.slot, .waiting⟩ .top hw
  have cw := cntPhase_set s.workers i w ⟨w.slot, .waiting⟩ .waiting hw
  have cr := cntPhase_set s.workers i w ⟨w.slot, .waiting⟩ .running hw
  have ce := cntPhase_set s.workers i w ⟨w.slot, .waiting⟩ .exitedTerm hw
  rw [hph] at ctop cw cr ce
  simp at ctop cw cr ce
  unfold WF
  simp only [wAt, activeAt]
  refine ⟨hmin0, hq0, hq64, by omega, by omega, by omega, by omega, htq, hlen,
    by omega, ?_, ?_, ?_⟩
  · intro k hk hlive
    rw [List.length_set] at hk
    rw [getD_set_live_eq s.workers i w .waiting hw (by rw [hph]; rfl) k] at hlive
    rw [getD_set_slot_eq s.workers i w .waiting hw k]
    exact hla k hk hlive
  · intro k hk l hl hkl hlk hll
    rw [List.length_set] at hk hl
    rw [getD_set_live_eq s.workers i w .waiting hw (by rw [hph]; rfl) k] at hlk
    rw [getD_set_live_eq s.workers i w .waiting hw (by rw [hph]; rfl) l] at hll
    rw [getD_set_slot_eq s.workers i w .waiting hw k,
        getD_set_slot_eq s.workers i w .waiting hw l]
    exact huniq k hk l hl hkl hlk hll
  · intro hterm' j hj hact'
    obtain ⟨k, hk, hkslot, hklive⟩ := hal hterm' j hj hact'
    refine ⟨k, by rw [List.length_set]; exact hk, ?_, ?_⟩
    · rw [getD_set_slot_eq s.workers i w .waiting hw k]
      exact hkslot
    · rw [getD_set_live_eq s.workers i w .waiting hw (by rw [hph]; rfl) k]
      exact hklive

lemma wf_wakeTake (s s' : GState) (sigs : List Sig) (i : Nat)
    (h : WF s) (hstep : stepFn s (.wakeTake i) = some (s', sigs)) : WF s' := by
  obtain ⟨hmin0, hq0, hq64, hfree, hnum, hnmax, hnmin, htq, hlen, hcnt, hla, huniq, hal⟩ := h
  simp only [wAt, activeAt] at hla huniq hal
  rcases hw : s.workers[i]? with _ | w <;> simp [stepFn, hw] at hstep
  obtain ⟨⟨hph, htne, hnt⟩, hs', hsig⟩ := hstep
  subst hs'
  have hilt : i < s.workers.length := getElem?_some_lt hw
  have ctop := cntPhase_set s.workers i w ⟨w.slot, .running⟩ .top hw
  have cw := cntPhase_set s.workers i w ⟨w.slot, .running⟩ .waiting hw
  have cr := cntPhase_set s.workers i w ⟨w.slot, .running⟩ .running hw
  have ce := cntPhase_set s.workers i w ⟨w.slot, .running⟩ .exitedTerm hw
  rw [hph] at ctop cw cr ce
  simp at ctop cw cr ce
  unfold WF
  simp only [wAt, activeAt]
  refine ⟨hmin0, hq0, hq64, by omega, by omega, by omega, by omega, by omega,
    hlen, by omega, ?_, ?_, ?_⟩
  · intro k hk hlive
    rw [List.length_set] at hk
    rw [getD_set_live_eq s.workers i w .running hw (by rw [hph]; rfl) k] at hlive
    rw [getD_set_slot_eq s.workers i w .running hw k]
    exact hla k hk hlive
  · intro k hk l hl hkl hlk hll
    rw [List.length_set] at hk hl
    rw [getD_set_live_eq s.workers i w .running hw (by rw [hph]; rfl) k] at hlk
    rw [getD_set_live_eq s.workers i w .running hw (by rw [hph]; rfl) l] at hll
    rw [getD_set_slot_eq s.workers i w .running hw k,
        getD_set_slot_eq s.workers i w .running hw l]
    exact huniq k hk l hl hkl hlk hll
  · intro hterm' j hj hact'
    obtain ⟨k, hk, hkslot, hklive⟩ := hal hterm' j hj hact'
    refine ⟨k, by rw [List.length_set]; exact hk, ?_, ?_⟩
    · rw [getD_set_slot_eq s.workers i w .running hw k]
      exact hkslot
    · rw [getD_set_live_eq s.workers i w .running hw (by rw [hph]; rfl) k]
      exact hklive

lemma wf_wakeExit (s s' : GState) (sigs : List Sig) (i : Nat)
    (h : WF s) (hstep : stepFn s (.wakeExit i) = some (s', sigs)) : WF s' := by
  obtain ⟨hmin0, hq0, hq64, hfree, hnum, hnmax, hnmin, htq, hlen, hcnt, hla, huniq, hal⟩ := h
  simp only [wAt, activeAt] at hla huniq hal
  rcases hw : s.workers[i]? with _ | w <;> simp [stepFn, hw] at hstep
  obtain ⟨⟨hph, hpred, hterm⟩, hs', hsig⟩ := hstep
  subst hs'
  have hilt : i < s.workers.length := getElem?_some_lt hw
  have ctop := cntPhase_set s.workers i w ⟨w.slot, .exitedTerm⟩ .top hw
  have cw := cntPhase_set s.workers i w ⟨w.slot, .exitedTerm⟩ .waiting hw
  have cr := cntPhase_set s.workers i w ⟨w.slot, .exitedTerm⟩ .running hw
  have ce := cntPhase_set s.workers i w ⟨w.slot, .exitedTerm⟩ .exitedTerm hw
  rw [hph] at ctop cw cr ce
  simp at ctop cw cr ce
  unfold WF
  simp only [wAt, activeAt]
  refine ⟨hmin0, hq0, hq64, by omega, by omega, by omega, by omega, htq, hlen,
    by omega, ?_, ?_, ?_⟩
  · intro k hk hlive
    rw [List.length_set] at hk
    rcases eq_or_ne k i with rfl | hki
    · rw [getD_set_self s.workers k ⟨w.slot, .exitedTerm⟩ ⟨0, .top⟩ hilt] at hlive
      exact absurd hlive (by simp [WPhase.live])
    · rw [getD_set_ne s.workers _ _ (Ne.symm hki)] at hlive
      rw [getD_set_ne s.workers _ _ (Ne.symm hki)]
      exact hla k hk hlive
  · intro k hk l hl hkl hlk hll
    rw [List.length_set] at hk hl
    rcases eq_or_ne k i with rfl | hki
    · rw [getD_set_self s.workers k ⟨w.slot, .exitedTerm⟩ ⟨0, .top⟩ hilt] at hlk
      exact absurd hlk (by simp [WPhase.live])
    · rcases eq_or_ne l i with rfl | hli
      · rw [getD_set_self s.workers l ⟨w.slot, .exitedTerm⟩ ⟨0, .top⟩ hilt] at hll
        exact absurd hll (by simp [WPhase.live])
      · rw [getD_set_ne s.workers _ _ (Ne.symm hki)] at hlk ⊢
        rw [getD_set_ne s.workers _ _ (Ne.symm hli)] at hll ⊢
        exact huniq k hk l hl hkl hlk hll
  · intro hterm' j hj hact'
    rw [hterm] at hterm'
    exact absurd hterm' (by simp)

lemma wf_finishTask (s s' : GState) (sigs : List Sig) (i : Nat)
    (h : WF s) (hstep : stepFn s (.finishTask i) = some (s', sigs)) : WF s' := by
  obtain ⟨hmin0, hq0, hq64, hfree, hnum, hnmax, hnmin, htq, hlen, hcnt, hla, huniq, hal⟩ := h
  simp only [wAt, activeAt] at hla huniq hal
  rcases hw : s.workers[i]? with _ | w <;> simp [stepFn, hw] at hstep
  obtain ⟨hph, hs', hsig⟩ := hstep
  subst hs'
  have hilt : i < s.workers.length := getElem?_some_lt hw
  have ctop := cntPhase_set s.workers i w ⟨w.slot, .top⟩ .top hw
  have cw := cntPhase_set s.workers i w ⟨w.slot, .top⟩ .waiting hw
  have cr := cntPhase_set s.workers i w ⟨w.slot, .top⟩ .running hw
  have ce := cntPhase_set s.workers i w ⟨w.slot, .top⟩ .exitedTerm hw
  rw [hph] at ctop cw cr ce
  simp at ctop cw cr ce
  unfold WF
  simp only [wAt, activeAt]
  refine ⟨hmin0, hq0, hq64, by omega, by omega, by omega, by omega, htq, hlen,
    by omega, ?_, ?_, ?_⟩
  · intro k hk hlive
    rw [List.length_set] at hk
    rw [getD_set_live_eq s.workers i w .top hw (by rw [hph]; rfl) k] at hlive
    rw [getD_set_slot_eq s.workers i w .top hw k]
    exact hla k hk hlive
  · intro k hk l hl hkl hlk hll
    rw [List.length_set] at hk hl
    rw [getD_set_live_eq s.workers i w .top hw (by rw [hph]; rfl) k] at hlk
    rw [getD_set_live_eq s.workers i w .top hw (by rw [hph]; rfl) l] at hll
    rw [getD_set_slot_eq s.workers i w .top hw k,
        getD_set_slot_eq s.workers i w .top hw l]
    exact huniq k hk l hl hkl hlk hll
  · intro hterm' j hj hact'
    obtain ⟨k, hk, hkslot, hklive⟩ := hal hterm' j hj hact'
    refine ⟨k, by rw [List.length_set]; exact hk, ?_, ?_⟩
    · rw [getD_set_slot_eq s.workers i w .top hw k]
      exact hkslot
    · rw [getD_set_live_eq s.workers i w .top hw (by rw [hph]; rfl) k]
      exact hklive

lemma wf_terminateCall (s s' : GState) (sigs : List Sig)
    (h : WF s) (hstep : stepFn s .terminateCall = some (s', sigs)) : WF s' := by
  rcases ht : s.pool.terminated with _ | _ <;> simp [stepFn, ht] at hstep <;>
    obtain ⟨hs', hsig⟩ := hstep <;> subst hs'
  · obtain ⟨hmin0, hq0, hq64, hfree, hnum, hnmax, hnmin, htq, hlen, hcnt, hla, huniq, hal⟩ := h
    simp only [wAt, activeAt] at hla huniq hal
    unfold WF
    simp only [wAt, activeAt]
    refine ⟨hmin0, hq0, hq64, hfree, hnum, hnmax, hnmin, htq, hlen, hcnt, hla, huniq, ?_⟩
    intro hterm'
    exact absurd hterm' (by simp)
  · exact h

lemma getD_append_left {α : Type} (l : List α) (a d : α) {k : Nat} (h : k < l.length) :
    (l ++ [a]).getD k d = l.getD k d := by
  rw [List.getD_eq_getElem?_getD, List.getD_eq_getElem?_getD, List.getElem?_append,
      if_pos h]

lemma getD_concat_length {α : Type} (l : List α) (a d : α) :
    (l ++ [a]).getD l.length d = a := by
  rw [List.getD_eq_getElem?_getD, List.getElem?_concat_length]
  rfl

lemma cntPhase_concat (ws : List WorkerT) (v : WorkerT) (p : WPhase) :
    cntPhase (ws ++ [v]) p = cntPhase ws p + (if v.phase = p then 1 else 0) := by
  unfold cntPhase
  rw [List.countP_append]
  congr 1
  simp [List.countP_cons]

lemma scanInactive_some_false :
    ∀ (l : List Bool) (j : Nat), scanInactive l = some j → l[j]? = some false := by
  intro l
  induction l with
  | nil => intro j h; simp [scanInactive] at h
  | cons b rest ih =>
      intro j h
      rw [scanInactive] at h
      split_ifs at h with hb
      · simp only [Option.some.injEq] at h
        subst h
        simp [hb]
      · rcases hs : scanInactive rest with _ | j'
        · rw [hs] at h; simp at h
        · rw [hs] at h
          simp only [Option.map_some', Option.some.injEq] at h
          subst h
          simpa using ih j' hs

lemma scanInactive_min :
    ∀ (l : List Bool) (j : Nat), scanInactive l = some j →
      ∀ m, m < j → l[m]? = some true := by
  intro l
  induction l with
  | nil => intro j h; simp [scanInactive] at h
  | cons b rest ih =>
      intro j h m hm
      rw [scanInactive] at h
      split_ifs at h with hb
      · simp only [Option.some.injEq] at h
        omega
      · rcases hs : scanInactive rest with _ | j'
        · rw [hs] at h; simp at h
        · rw [hs] at h
          simp only [Option.map_some', Option.some.injEq] at h
          subst h
          cases m with
          | zero =>
              have : b = true := by
                cases b
                · exact absurd rfl hb
                · rfl
              simp [this]
          | succ m' => simpa using ih j' hs m' (by omega)

lemma scanInactive_none_all :
    ∀ (l : List Bool), scanInactive l = none → ∀ b ∈ l, b = true := by
  intro l
  induction l with
  | nil => intro _ b hb; simp at hb
  | cons c rest ih =>
      intro h b hb
      rw [scanInactive] at h
      split_ifs at h with hc
      rcases List.mem_cons.mp hb with rfl | hbr
      · cases b
        · exact absurd rfl hc
        · rfl
      · exact ih (by simpa using h) b hbr

lemma wf_enqueue (s s' : GState) (sigs : List Sig)
    (h : WF s) (hstep : stepFn s .enqueue = some (s', sigs)) : WF s' := by
  obtain ⟨hmin0, hq0, hq64, hfree, hnum, hnmax, hnmin, htq, hlen, hcnt, hla, huniq, hal⟩ := h
  simp only [wAt, activeAt] at hla huniq hal
  simp only [stepFn] at hstep
  rw [sizeT_eq_self (by omega) hq64] at hstep
  split_ifs at hstep with hq
  have hES : enqueueStep s = (s', sigs) := Option.some.inj hstep
  unfold enqueueStep at hES
  dsimp only at hES
  rw [Prod.ext_iff] at hES
  obtain ⟨hs2, hsig⟩ := hES
  dsimp only at hs2 hsig
  subst hs2
  split_ifs with hcond
  case pos =>
    unfold addWorker
    dsimp only
    rcases hscan : scanInactive s.pool.active_workers with _ | id
    · unfold WF
      simp only [wAt, activeAt]
      exact ⟨hmin0, hq0, hq64, hfree, hnum, hnmax, hnmin, by omega, hlen, hcnt,
        hla, huniq, hal⟩
    · have hfalse : s.pool.active_workers[id]? = some false :=
        scanInactive_some_false _ _ hscan
      have hidlt : id < s.pool.active_workers.length := getElem?_some_lt hfalse
      have hgDid : s.pool.active_workers.getD id false = false :=
        getD_of_getElem? false hfalse
      have ctop := cntPhase_concat s.workers ⟨id, .top⟩ .top
      have cw := cntPhase_concat s.workers ⟨id, .top⟩ .waiting
      have cr := cntPhase_concat s.workers ⟨id, .top⟩ .running
      have ce := cntPhase_concat s.workers ⟨id, .top⟩ .exitedTerm
      simp at ctop cw cr ce
      have cact := activeCount_set s.pool.active_workers id false true hfalse
      simp at cact
      unfold startWorker WF
      simp only [wAt, activeAt]
      refine ⟨hmin0, hq0, hq64, by omega, by omega, by omega, by omega, by omega,
        by rw [List.length_set]; exact hlen, by omega, ?_, ?_, ?_⟩
      · intro k hk hlive
        rw [List.length_append] at hk
        simp only [List.length_cons, List.length_nil] at hk
        rcases Nat.lt_or_ge k s.workers.length with hkl | hkl
        · rw [getD_append_left s.workers _ _ hkl] at hlive ⊢
          rcases eq_or_ne (s.workers.getD k ⟨0, .top⟩).slot id with hsl | hsl
          · rw [hsl, getD_set_self s.pool.active_workers id true false hidlt]
          · rw [getD_set_ne s.pool.active_workers _ _ (Ne.symm hsl)]
            exact hla k hkl hlive
        · have hkend : k = s.workers.length := by omega
          subst hkend
          rw [getD_concat_length s.workers ⟨id, .top⟩ ⟨0, .top⟩]
          exact getD_set_self s.pool.active_workers id true false hidlt
      · intro k hk l hl hkl hlk hll
        rw [List.length_append] at hk hl
        simp only [List.length_cons, List.length_nil] at hk hl
        rcases Nat.lt_or_ge k s.workers.length with hkless | hkge
        · rcases Nat.lt_or_ge l s.workers.length with hlless | hlge
          · rw [getD_append_left s.workers _ _ hkless] at hlk ⊢
            rw [getD_append_left s.workers _ _ hlless] at hll ⊢
            exact huniq k hkless l hlless hkl hlk hll
          · have hlend : l = s.workers.length := by omega
            subst hlend
            rw [getD_append_left s.workers _ _ hkless] at hlk ⊢
            rw [getD_concat_length s.workers ⟨id, .top⟩ ⟨0, .top⟩]
            intro hcontra
            have := hla k hkless hlk
            rw [hcontra] at this
            rw [hgDid] at this
            exact absurd this (by simp)
        · have hkend : k = s.workers.length := by omega
          subst hkend
          rcases Nat.lt_or_ge l s.workers.length with hlless | hlge
          · rw [getD_concat_length s.workers ⟨id, .top⟩ ⟨0, .top⟩]
            rw [getD_append_left s.workers _ _ hlless] at hll ⊢
            intro hcontra
            have := hla l hlless hll
            rw [← hcontra] at this
            rw [hgDid] at this
            exact absurd this (by simp)
          · omega
      · intro hterm' j hj hact'
        rw [List.length_set] at hj
        rcases eq_or_ne j id with hjid | hjid
        · refine ⟨s.workers.length, by simp, ?_, ?_⟩
          · rw [getD_concat_length s.workers ⟨id, .top⟩ ⟨0, .top⟩]
            exact hjid.symm
          · rw [getD_concat_length s.workers ⟨id, .top⟩ ⟨0, .top⟩]
            rfl
        · rw [getD_set_ne s.pool.active_workers _ _ (Ne.symm hjid)] at hact'
          obtain ⟨k, hk, hkslot, hklive⟩ := hal hterm' j hj hact'
          refine ⟨k, by simp; omega, ?_, ?_⟩
          · rw [getD_append_left s.workers _ _ hk]
            exact hkslot
          · rw [getD_append_left s.workers _ _ hk]
            exact hklive
  case neg =>
    unfold WF
    simp only [wAt, activeAt]
    exact ⟨hmin0, hq0, hq64, hfree, hnum, hnmax, hnmin, by omega, hlen, hcnt,
      hla, huniq, hal⟩

lemma wf_step (s s' : GState) (sigs : List Sig) (l : Label)
    (h : WF s) (hstep : stepFn s l = some (s', sigs)) : WF s' := by
  cases l with
  | retire i => exact wf_retire s s' sigs i h hstep
  | enterWait i => exact wf_enterWait s s' sigs i h hstep
  | wakeTake i => exact wf_wakeTake s s' sigs i h hstep
  | wakeExit i => exact wf_wakeExit s s' sigs i h hstep
  | finishTask i => exact wf_finishTask s s' sigs i h hstep
  | enqueue => exact wf_enqueue s s' sigs h hstep
  | terminateCall => exact wf_terminateCall s s' sigs h hstep

lemma wf_reach (s0 s : GState) (h0 : WF s0) (hr : Reach s0 s) : WF s := by
  induction hr with
  | refl => exact h0
  | tail hr hstep ih => exact wf_step _ _ _ _ ih hstep

lemma getD_map_range {α : Type} (k i : Nat) (f : Nat → α) (d : α) (h : i < k) :
    ((List.range k).map f).getD i d = f i := by
  rw [List.getD_eq_getElem?_getD, List.getElem?_map, List.getElem?_range h]
  rfl

lemma activeInit_succ (L k : Nat) :
    activeInit (L + 1) k = activeInit L k ++ [decide (L < k)] := by
  rw [activeInit, List.range_succ, List.map_append]
  rfl

lemma activeCount_append (l1 l2 : List Bool) :
    activeCount (l1 ++ l2) = activeCount l1 + activeCount l2 :=
  List.countP_append _ l1 l2

lemma activeCount_activeInit (L k : Nat) : activeCount (activeInit L k) = min k L := by
  induction L with
  | zero => simp [activeCount, activeInit]
  | succ L ih =>
      rw [activeInit_succ, activeCount_append, ih]
      by_cases hLk : L < k
      · simp [activeCount, hLk]
        omega
      · simp [activeCount, hLk]
        omega

lemma activeCount_eq_length (l : List Bool) (h : ∀ b ∈ l, b = true) :
    activeCount l = l.length := by
  induction l with
  | nil => rfl
  | cons b rest ih =>
      unfold activeCount at ih ⊢
      rw [List.countP_cons]
      have hb : b = true := h b (by simp)
      rw [ih (fun x hx => h x (by simp [hx]))]
      simp [hb]

lemma wf_mkInit (m M q : Int) (h0 : 0 ≤ m) (hmM : m ≤ M) (hq : 0 < q)
    (hq64 : q < 2 ^ 64) : WF (mkInit m M q m.toNat) := by
  have hkL : m.toNat ≤ M.toNat := by omega
  have hct : ∀ p : WPhase,
      cntPhase ((List.range m.toNat).map (fun j => (⟨j, .top⟩ : WorkerT))) p
        = if WPhase.top = p then m.toNat else 0 := by
    intro p
    unfold cntPhase
    rw [List.countP_map]
    by_cases hp : WPhase.top = p
    · rw [if_pos hp, ← hp]
      have hcomp : ((fun w : WorkerT => decide (w.phase = WPhase.top)) ∘
          fun j => (⟨j, .top⟩ : WorkerT)) = fun _ => true := by
        funext j
        simp [Function.comp]
      rw [hcomp]
      simp
    · rw [if_neg hp]
      have hcomp : ((fun w : WorkerT => decide (w.phase = p)) ∘
          fun j => (⟨j, .top⟩ : WorkerT)) = fun _ => false := by
        funext j
        simp [Function.comp]
        exact hp
      rw [hcomp]
      simp
  unfold WF mkInit
  simp only [wAt, activeAt]
  refine ⟨h0, hq, hq64, ?_, ?_, ?_, ?_, by omega, ?_, ?_, ?_, ?_, ?_⟩
  · rw [hct .waiting, hct .exitedTerm]
    simp
  · rw [hct .top, hct .waiting, hct .running, hct .exitedTerm]
    simp
  · omega
  · omega
  · rw [length_activeInit]
    omega
  · rw [activeCount_activeInit]
    omega
  · intro i hi hlive
    simp only [List.length_map, List.length_range] at hi
    rw [getD_map_range m.toNat i _ _ hi]
    unfold activeInit
    rw [getD_map_range M.toNat i _ _ (by omega)]
    simp
    omega
  · intro i hi j hj hij hli hlj
    simp only [List.length_map, List.length_range] at hi hj
    rw [getD_map_range m.toNat i _ _ hi, getD_map_range m.toNat j _ _ hj]
    simpa using hij
  · intro _ j hj hact
    rw [length_activeInit] at hj
    unfold activeInit at hact
    rw [getD_map_range M.toNat j _ _ hj] at hact
    have hjk : j < m.toNat := by simpa using hact
    refine ⟨j, by simp [hjk], ?_, ?_⟩
    · rw [getD_map_range m.toNat j _ _ hjk]
    · rw [getD_map_range m.toNat j _ _ hjk]
      rfl

/-! ### Claim C6 -/

/-- C6.  At every quiescent observation of a pool constructed from a valid
configuration (the spec's `0 ≤ min_workers ≤ max_workers`,
`0 < max_queue_size`, with `max_queue_size` in `int` range), the counters
and queue satisfy `0 ≤ free_workers ≤ num_workers ≤ max_workers` and
`queue.length ≤ max_queue_size`; every operation preserves these bounds
(the conclusion holds at every reachable state). -/
theorem counters_and_queue_bounded (m M q : Int) (s0 s : GState)
    (h0 : 0 ≤ m) (hmM : m ≤ M) (hq : 0 < q) (hq64 : q < 2 ^ 64)
    (hc : construct m M q = .constructed s0) (hr : Reach s0 s) :
    0 ≤ s.pool.free_workers ∧ s.pool.free_workers ≤ s.pool.num_workers
      ∧ s.pool.num_workers ≤ s.pool.max_workers
      ∧ (s.pool.tasks : Int) ≤ s.pool.max_qsize := by
  rw [construct_eq_mkInit m M q h0 hmM] at hc
  have hs0 : s0 = mkInit m M q m.toNat := (CtorResult.constructed.inj hc).symm
  subst hs0
  have hwf := wf_reach _ _ (wf_mkInit m M q h0 hmM hq hq64) hr
  obtain ⟨_, _, _, hfree, hnum, hnmax, _, htq, _, _, _, _, _⟩ := hwf
  exact ⟨by omega, by omega, hnmax, htq⟩

/-- C6, witness for `counters_and_queue_bounded`. -/
theorem counters_and_queue_bounded_witness :
    0 ≤ sOneWorker.pool.free_workers
    ∧ sOneWorker.pool.free_workers ≤ sOneWorker.pool.num_workers
    ∧ sOneWorker.pool.num_workers ≤ sOneWorker.pool.max_workers
    ∧ (sOneWorker.pool.tasks : Int) ≤ sOneWorker.pool.max_qsize :=
  counters_and_queue_bounded 1 1 1 sOneWorker sOneWorker (by decide) (by decide)
    (by decide) (by decide) (by decide) Reach.refl

/-! ### Claim C7 -/

/-- C7.  In every reachable state of a validly configured pool,
`num_workers` never drops below `min_workers` (also after termination, a
fortiori while `terminated` is false); and a worker at the top of its loop
retires — marks its slot inactive, decrements `num_workers`, exits —
exactly when the atomic check of lines 32-36 sees an empty queue together
with `num_workers_ > min_workers_`; in particular it never retires while a
task it could have taken is queued. -/
theorem worker_retirement_exact (m M q : Int) (s0 s : GState) (i : Nat) (w : WorkerT)
    (h0 : 0 ≤ m) (hmM : m ≤ M) (hq : 0 < q) (hq64 : q < 2 ^ 64)
    (hc : construct m M q = .constructed s0) (hr : Reach s0 s) :
    s.pool.min_workers ≤ s.pool.num_workers
    ∧ (s.workers[i]? = some w → w.phase = .top →
        ((stepFn s (.retire i) ≠ none) ↔
          (s.pool.tasks = 0 ∧ s.pool.min_workers < s.pool.num_workers)))
    ∧ (∀ s' sigs, stepFn s (.retire i) = some (s', sigs) → s.workers[i]? = some w →
        s.pool.tasks = 0 ∧ s.pool.min_workers < s.pool.num_workers
        ∧ s'.pool.num_workers = s.pool.num_workers - 1
        ∧ s'.pool.active_workers = s.pool.active_workers.set w.slot false
        ∧ s'.workers = s.workers.set i ⟨w.slot, .exitedRetired⟩) := by
  rw [construct_eq_mkInit m M q h0 hmM] at hc
  have hs0 : s0 = mkInit m M q m.toNat := (CtorResult.constructed.inj hc).symm
  subst hs0
  have hwf := wf_reach _ _ (wf_mkInit m M q h0 hmM hq hq64) hr
  obtain ⟨_, _, _, _, _, _, hnmin, _, _, _, _, _, _⟩ := hwf
  refine ⟨hnmin, ?_, ?_⟩
  · intro hw hph
    by_cases hcond : s.pool.tasks = 0 ∧ s.pool.min_workers < s.pool.num_workers
    · refine ⟨fun _ => hcond, fun _ => ?_⟩
      simp [stepFn, hw, hph, hcond.1, hcond.2]
    · refine ⟨fun hne => ?_, fun hc => absurd hc hcond⟩
      exfalso
      apply hne
      simp [stepFn, hw, hph, hcond]
  · intro s' sigs hstep hw
    rcases hw2 : s.workers[i]? with _ | w2
    · rw [hw2] at hw
      exact absurd hw (by simp)
    · rw [hw2] at hw
      have hww : w2 = w := by simpa using hw
      subst hww
      simp [stepFn, hw2] at hstep
      obtain ⟨⟨hph2, hempty, hgt⟩, hs', hsig⟩ := hstep
      subst hs'
      exact ⟨hempty, hgt, rfl, rfl, rfl⟩

/-- C7, witness for `worker_retirement_exact`. -/
theorem worker_retirement_exact_witness :
    sOneWorker.pool.min_workers ≤ sOneWorker.pool.num_workers
    ∧ (sOneWorker.workers[0]? = some ⟨0, .top⟩ → (⟨0, .top⟩ : WorkerT).phase = .top →
        ((stepFn sOneWorker (.retire 0) ≠ none) ↔
          (sOneWorker.pool.tasks = 0
            ∧ sOneWorker.pool.min_workers < sOneWorker.pool.num_workers)))
    ∧ (∀ s' sigs, stepFn sOneWorker (.retire 0) = some (s', sigs) →
        sOneWorker.workers[0]? = some ⟨0, .top⟩ →
        sOneWorker.pool.tasks = 0
        ∧ sOneWorker.pool.min_workers < sOneWorker.pool.num_workers
        ∧ s'.pool.num_workers = sOneWorker.pool.num_workers - 1
        ∧ s'.pool.active_workers = sOneWorker.pool.active_workers.set 0 false
        ∧ s'.workers = sOneWorker.workers.set 0 ⟨0, .exitedRetired⟩) :=
  worker_retirement_exact 1 1 1 sOneWorker sOneWorker 0 ⟨0, .top⟩ (by decide)
    (by decide) (by decide) (by decide) (by decide) Reach.refl

/-! ### Claim C5 -/

/-- C5, counterexample.  The claim asserts the active-iff-live-worker
association also after `terminate()` has been called.  Reachable trace:
`construct(1,1,1)`; the worker enters the wait; `terminate()` is called;
the worker wakes, observes `terminated_` and exits at line 48 — without
clearing `active_workers_[0]`.  In the final state the pool is terminated,
slot 0 is still marked active, yet no live worker exists. -/
theorem slot_active_after_terminate_counterexample :
    construct 1 1 1 = .constructed sOneWorker
    ∧ stepFn sOneWorker (.enterWait 0) = some (sWaiting, [])
    ∧ stepFn sWaiting .terminateCall = some (sWaitingTerminated, [Sig.workersCV])
    ∧ stepFn sWaitingTerminated (.wakeExit 0) = some (sExitedStale, [])
    ∧ sExitedStale.pool.terminated = true
    ∧ sExitedStale.pool.active_workers.getD 0 false = true
    ∧ (∀ i < sExitedStale.workers.length,
        (wAt sExitedStale i).phase.live = false) := by decide

/-- C5, amended.  While `terminated` is false, at every quiescent
observation a slot is marked active iff it currently has a live worker
thread associated with it; after `terminate()` a worker that exits through
the termination path leaves its slot marked active with no live worker
(see the counterexample). -/
theorem slot_active_iff_live_before_termination (m M q : Int) (s0 s : GState)
    (h0 : 0 ≤ m) (hmM : m ≤ M) (hq : 0 < q) (hq64 : q < 2 ^ 64)
    (hc : construct m M q = .constructed s0) (hr : Reach s0 s)
    (hterm : s.pool.terminated = false) (j : Nat)
    (hj : j < s.pool.active_workers.length) :
    s.pool.active_workers.getD j false = true
      ↔ ∃ i, i < s.workers.length ∧ (wAt s i).slot = j
          ∧ (wAt s i).phase.live = true := by
  rw [construct_eq_mkInit m M q h0 hmM] at hc
  have hs0 : s0 = mkInit m M q m.toNat := (CtorResult.constructed.inj hc).symm
  subst hs0
  have hwf := wf_reach _ _ (wf_mkInit m M q h0 hmM hq hq64) hr
  obtain ⟨_, _, _, _, _, _, _, _, _, _, hla, _, hal⟩ := hwf
  constructor
  · intro hact
    obtain ⟨k, hk, hkslot, hklive⟩ := hal hterm j hj hact
    exact ⟨k, hk, hkslot, hklive⟩
  · rintro ⟨k, hk, hkslot, hklive⟩
    have := hla k hk hklive
    rw [hkslot] at this
    exact this

/-- C5, witness for `slot_active_iff_live_before_termination`. -/
theorem slot_active_iff_live_witness :
    sOneWorker.pool.active_workers.getD 0 false = true
      ↔ ∃ i, i < sOneWorker.workers.length ∧ (wAt sOneWorker i).slot = 0
          ∧ (wAt sOneWorker i).phase.live = true :=
  slot_active_iff_live_before_termination 1 1 1 sOneWorker sOneWorker (by decide)
    (by decide) (by decide) (by decide) (by decide) Reach.refl (by decide) 0 (by decide)

/-! ### Claim C8 -/

/-- C8.  For every successful run of the enqueue region of `submit` (the
code after the wait of line 117, on a state satisfying the slot-table
accounting of the pool invariant): the task is enqueued first; a new worker
is spawned iff `free_workers == 0 ∧ num_workers < max_workers` immediately
after the enqueue (the counters are untouched by the enqueue itself);
spawning picks the lowest-numbered inactive slot — every lower slot is
active, every prior worker of that slot has exited (so the `join` of
line 68 returns at once) — marks it active, starts the worker there and
increments `num_workers`; and the work-available signal is pulsed exactly
once whether or not a spawn occurred. -/
theorem spawn_decision_and_signal (s : GState)
    (hq : (s.pool.tasks : Int) < sizeT s.pool.max_qsize)
    (hlen : (s.pool.active_workers.length : Int) = s.pool.max_workers)
    (hcnt : (activeCount s.pool.active_workers : Int) = s.pool.num_workers)
    (hla : ∀ i < s.workers.length, (wAt s i).phase.live = true →
        activeAt s (wAt s i).slot = true) :
    ∃ s', stepFn s .enqueue = some (s', [Sig.workersCV])
    ∧ s'.pool.tasks = s.pool.tasks + 1
    ∧ (¬(s.pool.free_workers = 0 ∧ s.pool.num_workers < s.pool.max_workers) →
        s'.pool.num_workers = s.pool.num_workers ∧ s'.workers = s.workers
        ∧ s'.pool.active_workers = s.pool.active_workers)
    ∧ ((s.pool.free_workers = 0 ∧ s.pool.num_workers < s.pool.max_workers) →
        ∃ id, scanInactive s.pool.active_workers = some id
        ∧ s.pool.active_workers.getD id false = false
        ∧ (∀ k < id, s.pool.active_workers.getD k false = true)
        ∧ (∀ i < s.workers.length, (wAt s i).slot = id →
            (wAt s i).phase.live = false)
        ∧ s'.pool.num_workers = s.pool.num_workers + 1
        ∧ s'.pool.active_workers = s.pool.active_workers.set id true
        ∧ s'.workers = s.workers ++ [⟨id, .top⟩]) := by
  refine ⟨(enqueueStep s).1, ?_, enqueueStep_tasks s, ?_, ?_⟩
  · simp only [stepFn, if_pos hq]
    exact congrArg some (Prod.ext rfl (enqueueStep_sigs s))
  · intro hncond
    unfold enqueueStep
    dsimp only
    rw [if_neg hncond]
    exact ⟨rfl, rfl, rfl⟩
  · intro hcond
    have hsc : ∃ id, scanInactive s.pool.active_workers = some id := by
      rcases hscan : scanInactive s.pool.active_workers with _ | id
      · exfalso
        have hall := scanInactive_none_all _ hscan
        have := activeCount_eq_length s.pool.active_workers hall
        omega
      · exact ⟨id, rfl⟩
    obtain ⟨id, hscan⟩ := hsc
    have hfalse : s.pool.active_workers[id]? = some false :=
      scanInactive_some_false _ _ hscan
    refine ⟨id, hscan, getD_of_getElem? false hfalse, ?_, ?_, ?_, ?_, ?_⟩
    · intro k hk
      exact getD_of_getElem? false (scanInactive_min _ _ hscan k hk)
    · intro k hk hslot
      by_contra hlive
      rw [Bool.not_eq_false] at hlive
      have := hla k hk hlive
      rw [hslot] at this
      have hgd : s.pool.active_workers.getD id false = false :=
        getD_of_getElem? false hfalse
      rw [activeAt, hgd] at this
      exact absurd this (by simp)
    · unfold enqueueStep
      dsimp only
      rw [if_pos hcond]
      unfold addWorker
      dsimp only
      rw [hscan]
      rfl
    · unfold enqueueStep
      dsimp only
      rw [if_pos hcond]
      unfold addWorker
      dsimp only
      rw [hscan]
      rfl
    · unfold enqueueStep
      dsimp only
      rw [if_pos hcond]
      unfold addWorker
      dsimp only
      rw [hscan]
      rfl

/-- C8, witness for `spawn_decision_and_signal`. -/
theorem spawn_decision_and_signal_witness :
    ∃ s', stepFn sSpawnReady .enqueue = some (s', [Sig.workersCV])
    ∧ s'.pool.tasks = sSpawnReady.pool.tasks + 1
    ∧ (¬(sSpawnReady.pool.free_workers = 0
          ∧ sSpawnReady.pool.num_workers < sSpawnReady.pool.max_workers) →
        s'.pool.num_workers = sSpawnReady.pool.num_workers ∧ s'.workers = sSpawnReady.workers
        ∧ s'.pool.active_workers = sSpawnReady.pool.active_workers)
    ∧ ((sSpawnReady.pool.free_workers = 0
          ∧ sSpawnReady.pool.num_workers < sSpawnReady.pool.max_workers) →
        ∃ id, scanInactive sSpawnReady.pool.active_workers = some id
        ∧ sSpawnReady.pool.active_workers.getD id false = false
        ∧ (∀ k < id, sSpawnReady.pool.active_workers.getD k false = true)
        ∧ (∀ i < sSpawnReady.workers.length, (wAt sSpawnReady i).slot = id →
            (wAt sSpawnReady i).phase.live = false)
        ∧ s'.pool.num_workers = sSpawnReady.pool.num_workers + 1
        ∧ s'.pool.active_workers = sSpawnReady.pool.active_workers.set id true
        ∧ s'.workers = sSpawnReady.workers ++ [⟨id, .top⟩]) :=
  spawn_decision_and_signal sSpawnReady (by decide) (by decide) (by decide) (by decide)

/-- C2, witness for `terminate_never_wakes_blocked_submitters`. -/
theorem terminate_never_wakes_blocked_submitters_witness :
    stepFn sTerminatedFull (.wakeExit 0) = some (sTerminatedFullExited, [])
    ∧ (sTerminatedFullExited.pool.terminated = true
        ∧ sTerminatedFullExited.pool.max_qsize = sTerminatedFull.pool.max_qsize
        ∧ sTerminatedFullExited.pool.max_qsize ≤ (sTerminatedFullExited.pool.tasks : Int)
        ∧ Sig.submitCV ∉ ([] : List Sig)) :=
  ⟨by decide,
   terminate_never_wakes_blocked_submitters sTerminatedFull sTerminatedFullExited
     (.wakeExit 0) [] (by decide) (by decide) (by decide) (by decide) (by decide)⟩

/-! ### Claim C3 -/

/-- C3 (settled on the spec-modelled variadic `submit`, see `vsubmit`).  On
a non-terminated pool, `submit(callable, arguments...)` binds the callable
and its arguments by value into a zero-argument task closure paired with a
freshly allocated result channel, appends exactly that task to the queue,
and returns the reader half of the channel to the caller immediately: at
return time the channel is still unfulfilled (the call does not wait for
the task to execute), and only running the appended task later fulfills it
with the callable's value at the bound arguments. -/
theorem submit_binds_and_returns_reader (f : List Int → Int) (args : List Int)
    (p : VPool) (h : p.terminated = false) :
    vsubmit f args p = .ok (p.channels.length, vafterSubmit f args p)
    ∧ (vafterSubmit f args p).queue
        = p.queue ++ [⟨fun _ => f args, p.channels.length⟩]
    ∧ vread (vafterSubmit f args p) p.channels.length = none
    ∧ (⟨fun _ => f args, p.channels.length⟩ : VTask).closure () = f args
    ∧ vread (vrunTask ⟨fun _ => f args, p.channels.length⟩ (vafterSubmit f args p))
        p.channels.length = some (f args) := by
  refine ⟨?_, rfl, ?_, rfl, ?_⟩
  · unfold vsubmit vafterSubmit
    rw [if_neg (by rw [h]; exact Bool.false_ne_true)]
  · unfold vread vafterSubmit
    exact getD_concat_length p.channels none none
  · unfold vread vrunTask vafterSubmit
    dsimp only
    have hlen : p.channels.length < (p.channels ++ [none]).length := by
      simp
    exact getD_set_self (p.channels ++ [none]) p.channels.length _ none hlen

/-- C3, witness for `submit_binds_and_returns_reader`. -/
theorem submit_binds_and_returns_reader_witness :
    vsubmit (fun l => l.foldl (· + ·) 0) [2, 3] ⟨false, [], []⟩
      = .ok (0, vafterSubmit (fun l => l.foldl (· + ·) 0) [2, 3] ⟨false, [], []⟩)
    ∧ (vafterSubmit (fun l => l.foldl (· + ·) 0) [2, 3] ⟨false, [], []⟩).queue
        = [] ++ [⟨fun _ => (fun l : List Int => l.foldl (· + ·) 0) [2, 3], 0⟩]
    ∧ vread (vafterSubmit (fun l => l.foldl (· + ·) 0) [2, 3] ⟨false, [], []⟩) 0 = none
    ∧ (⟨fun _ => (fun l : List Int => l.foldl (· + ·) 0) [2, 3], 0⟩ : VTask).closure ()
        = (fun l : List Int => l.foldl (· + ·) 0) [2, 3]
    ∧ vread (vrunTask ⟨fun _ => (fun l : List Int => l.foldl (· + ·) 0) [2, 3], 0⟩
          (vafterSubmit (fun l => l.foldl (· + ·) 0) [2, 3] ⟨false, [], []⟩)) 0
        = some ((fun l : List Int => l.foldl (· + ·) 0) [2, 3]) :=
  submit_binds_and_returns_reader (fun l => l.foldl (· + ·) 0) [2, 3]
    ⟨false, [], []⟩ rfl

end ThreadPool
